import Mathlib

/-!
Verification of the rasterization and incremental-redraw engine of the
`analog-clock` terminal program (`src/clock.rs`).

The Rust code is shallowly embedded: pure data and algorithms become Lean
definitions, the mutating draw pipeline becomes explicit state passing, and
fallible operations (Rust panics, such as out-of-bounds indexing or the
dimension-mismatch panic in `Matrix::diff`) become `Except`.  Machine floats
(`f32`) are embedded as exact rationals; the `as isize` / `as i32` casts on
finite floats truncate toward zero, embedded as `ratTrunc`.  The two
rasterization iterators come from the program's direct dependencies
(`bresenham::Bresenham` and `line_drawing::BresenhamCircle`) and are embedded
from those crates, with the iterator protocol unrolled by an explicit fuel
that is large enough to exhaust the iterator.
-/

namespace AnalogClock

/-- A color as handled by the program: the three channels of a
`colors_transform::Rgb` value (`f32` channels, embedded as rationals). -/
abbrev Color := ℚ × ℚ × ℚ

/-- `src/clock.rs` `struct Cell { color: Rgb }`. -/
structure Cell where
  color : Color
deriving DecidableEq

/-- An integer point, as used by the rasterizers (`isize`/`i32` coordinates). -/
abbrev IPoint := Int × Int

/-- Rust numeric cast `as isize` (or `as i32`) applied to a finite float:
truncation toward zero. -/
def ratTrunc (q : ℚ) : Int :=
  if 0 ≤ q then ⌊q⌋ else ⌈q⌉

instance {ε α : Type} [DecidableEq ε] [DecidableEq α] : DecidableEq (Except ε α) :=
  fun a b =>
    match a, b with
    | .ok x, .ok y =>
      if h : x = y then .isTrue (congrArg Except.ok h)
      else .isFalse fun hh => h (Except.ok.inj hh)
    | .error x, .error y =>
      if h : x = y then .isTrue (congrArg Except.error h)
      else .isFalse fun hh => h (Except.error.inj hh)
    | .ok _, .error _ => .isFalse fun hh => Except.noConfusion hh
    | .error _, .ok _ => .isFalse fun hh => Except.noConfusion hh

/-! ## The `bresenham` crate (dependency of `src/clock.rs`, used by `draw_hand`)

The crate computes the octant of the segment, maps both endpoints into
octant 0, runs the core loop there, and maps every produced point back.  Its
iterator yields the points from the start point up to, but not including, the
end point. -/

/-- The if-chain of `bresenham::Octant::from_points`, written as nested
conditionals on the original coordinate deltas (the crate mutates `dx`, `dy`
in place; each branch below records the accumulated octant number). -/
def octantFromPoints (s e : IPoint) : Nat :=
  let dx := e.1 - s.1
  let dy := e.2 - s.2
  if dy < 0 then
    if 0 < dx then
      if -dy < dx then 7 else 6
    else
      if -dx < -dy then 5 else 4
  else
    if dx < 0 then
      if dy < -dx then 3 else 2
    else
      if dx < dy then 1 else 0

/-- `bresenham::Octant::to_octant0`. -/
def toOctant0 (o : Nat) (p : IPoint) : IPoint :=
  match o with
  | 0 => (p.1, p.2)
  | 1 => (p.2, p.1)
  | 2 => (p.2, -p.1)
  | 3 => (-p.1, p.2)
  | 4 => (-p.1, -p.2)
  | 5 => (-p.2, -p.1)
  | 6 => (-p.2, p.1)
  | _ => (p.1, -p.2)

/-- `bresenham::Octant::from_octant0`. -/
def fromOctant0 (o : Nat) (p : IPoint) : IPoint :=
  match o with
  | 0 => (p.1, p.2)
  | 1 => (p.2, p.1)
  | 2 => (-p.2, p.1)
  | 3 => (-p.1, p.2)
  | 4 => (-p.1, -p.2)
  | 5 => (-p.2, -p.1)
  | 6 => (p.2, -p.1)
  | _ => (p.1, -p.2)

/-- The mutable state of the `bresenham::Bresenham` iterator
(octant-0 coordinates; the octant itself is applied outside). -/
structure BresState where
  x : Int
  y : Int
  dx : Int
  dy : Int
  x1 : Int
  diff : Int
deriving DecidableEq

/-- One call of `<Bresenham as Iterator>::next` (in octant-0 coordinates,
before mapping back): `None` once `x >= x1`, otherwise yield `(x, y)` and
advance. -/
def bresStep (st : BresState) : Option (IPoint × BresState) :=
  if st.x1 ≤ st.x then
    none
  else
    let p : IPoint := (st.x, st.y)
    let yd : Int × Int :=
      if 0 ≤ st.diff then (st.y + 1, st.diff - st.dx) else (st.y, st.diff)
    some (p, { st with x := st.x + 1, y := yd.1, diff := yd.2 + st.dy })

/-- Exhausting the iterator into a list, with fuel. -/
def bresRun : Nat → BresState → List IPoint
  | 0, _ => []
  | n + 1, st =>
    match bresStep st with
    | none => []
    | some (p, st') => p :: bresRun n st'

/-- `bresenham::Bresenham::new(start, end)` collected into a list: the
iterator runs in octant-0 coordinates and stops at `x1`, so `dx.toNat` steps
of fuel exhaust it. -/
def bresenham (s e : IPoint) : List IPoint :=
  let o := octantFromPoints s e
  let s' := toOctant0 o s
  let e' := toOctant0 o e
  let dx := e'.1 - s'.1
  let dy := e'.2 - s'.2
  (bresRun dx.toNat
      { x := s'.1, y := s'.2, dx := dx, dy := dy, x1 := e'.1, diff := dy - dx }).map
    (fromOctant0 o)

/-- Chebyshev distance between integer points (two points are 8-connected
exactly when it is 1). -/
def cheb (p q : IPoint) : ℕ :=
  max (p.1 - q.1).natAbs (p.2 - q.2).natAbs

/-- The successor state after one non-final `next` call. -/
def bresAdvance (st : BresState) : BresState :=
  { st with
    x := st.x + 1
    y := (if 0 ≤ st.diff then (st.y + 1, st.diff - st.dx) else (st.y, st.diff)).1
    diff := (if 0 ≤ st.diff then (st.y + 1, st.diff - st.dx) else (st.y, st.diff)).2
      + st.dy }

/-! ## The `line_drawing` crate: `BresenhamCircle`
(dependency of `src/clock.rs`, used by `draw_circle`) -/

/-- The mutable state of the `line_drawing::BresenhamCircle` iterator. -/
structure CircleState where
  x : Int
  y : Int
  centerX : Int
  centerY : Int
  radius : Int
  error : Int
  quadrant : Nat
deriving DecidableEq

/-- One call of `<BresenhamCircle as Iterator>::next`: while `x < 0`, yield
the current quadrant point; after the fourth quadrant, run the midpoint
update step (the crate reuses its `radius` field as the temporary that the
classic C formulation calls `r = err`). -/
def circleNext (st : CircleState) : Option (IPoint × CircleState) :=
  if st.x < 0 then
    let point : IPoint :=
      match st.quadrant with
      | 1 => (st.centerX - st.x, st.centerY + st.y)
      | 2 => (st.centerX - st.y, st.centerY - st.x)
      | 3 => (st.centerX + st.x, st.centerY - st.y)
      | _ => (st.centerX + st.y, st.centerY + st.x)
    let st' :=
      if st.quadrant = 4 then
        let radius := st.error
        let ye : Int × Int :=
          if radius ≤ st.y then (st.y + 1, st.error + (st.y + 1) * 2 + 1)
          else (st.y, st.error)
        let xe : Int × Int :=
          if radius > st.x ∨ ye.2 > ye.1 then (st.x + 1, ye.2 + (st.x + 1) * 2 + 1)
          else (st.x, ye.2)
        { st with radius := radius, y := ye.1, error := xe.2, x := xe.1 }
      else st
    some (point, { st' with quadrant := st.quadrant % 4 + 1 })
  else none

/-- Exhausting the circle iterator into a list, with fuel. -/
def circleRun : Nat → CircleState → List IPoint
  | 0, _ => []
  | n + 1, st =>
    match circleNext st with
    | none => []
    | some (p, st') => p :: circleRun n st'

/-- `line_drawing::BresenhamCircle::new(center_x, center_y, radius)` collected
into a list.  The iterator advances `x` from `-radius` towards `0` at most
every fourth call, and `y` never outruns the circle by more than the number
of update steps, so `8 * (radius + 2)` fuel always exhausts it. -/
def bresenhamCircle (cx cy r : Int) : List IPoint :=
  circleRun (8 * (r.toNat + 2)) ⟨-r, 0, cx, cy, r, 2 - 2 * r, 1⟩

/-! ## `Matrix` (`src/clock.rs`) and the drawing pipeline

Rust's unchecked `Vec` indexing panics when out of bounds (including via the
wrap-around of an `isize → usize` cast of a negative index); writes are
therefore embedded as `Except`, erring exactly when Rust would panic. -/

/-- `src/clock.rs` `struct Matrix`. -/
structure Matrix where
  cells : List (List (Option Cell))
  width : ℕ
  height : ℕ
  midpointX : ℚ
  midpointY : ℚ
  circleRadius : ℚ
deriving DecidableEq

/-- `Matrix::new` (`src/clock.rs:215`): `1.1` is exactly representable in the
rational model as `11/10`. -/
def Matrix.new (width height : ℕ) : Matrix :=
  let midpointX : ℚ := (width : ℚ) / 2
  let midpointY : ℚ := (height : ℚ) / 2
  { cells := List.replicate height (List.replicate width none)
    width := width
    height := height
    midpointX := midpointX
    midpointY := midpointY
    circleRadius := min midpointX midpointY / (11 / 10) }

/-- Reading `cells[y][x]` totally (used only to observe results). -/
def Matrix.cellAt (m : Matrix) (y x : ℕ) : Option Cell :=
  (m.cells.getD y []).getD x none

/-- The construction invariant of every `Matrix` the program builds. -/
def Matrix.WF (m : Matrix) : Prop :=
  m.cells.length = m.height ∧ ∀ row ∈ m.cells, row.length = m.width

instance (m : Matrix) : Decidable m.WF := by
  unfold Matrix.WF
  infer_instance

/-- The assignment `self.cells[y][x] = Some(cell)` with `isize` indices, as
performed by `draw_using_points` and `draw_circle`; Rust panics when the
index is negative (usize wrap-around) or beyond the vector length. -/
def Matrix.setCell (m : Matrix) (x y : Int) (cell : Cell) : Except String Matrix :=
  if 0 ≤ y ∧ y < ((m.cells.length : Int)) ∧ 0 ≤ x ∧
      x < (((m.cells.getD y.toNat []).length : Int)) then
    .ok { m with
      cells := m.cells.set y.toNat ((m.cells.getD y.toNat []).set x.toNat (some cell)) }
  else
    .error "index out of bounds"

/-- `src/clock.rs` `struct Point`. -/
structure Point where
  x : Int
  y : Int
  color : Color
deriving DecidableEq

/-- `Matrix::draw_using_points` (`src/clock.rs:390`). -/
def Matrix.drawUsingPoints (m : Matrix) (points : List Point) : Except String Matrix :=
  points.foldlM (fun acc p => acc.setCell p.x p.y ⟨p.color⟩) m

/-- `Matrix::draw_circle` (`src/clock.rs:228`): the `(x, y)` points of the
circle iterator are written directly, `cells[y][x]`, with no inversion of
`y`. -/
def Matrix.drawCircle (m : Matrix) (color : Color) : Except String Matrix :=
  (bresenhamCircle (ratTrunc m.midpointX) (ratTrunc m.midpointY)
      (ratTrunc m.circleRadius)).foldlM
    (fun acc p => acc.setCell p.1 p.2 ⟨color⟩) m

inductive HandThickness where
  | thin
  | bold
deriving DecidableEq

inductive HandLineStart where
  | fromCenter
  | fromCircumference
deriving DecidableEq

/-- `src/clock.rs` `struct Hand`, except that the `degree` field is replaced
at the use site by the direction pair `(dirX, dirY)` standing for
`(radian.cos(), radian.sin())` of `radian = PI/2 - degree.to_radians()`:
the `f32` trigonometry itself is outside the rational model, so `draw_hand`
below takes the direction as an exact input. -/
structure Hand where
  thickness : HandThickness
  length : ℚ
  lineStart : HandLineStart
  color : Color
deriving DecidableEq

/-- The origin stencil of `draw_hand` (`src/clock.rs:247`): a thin hand draws
once from the midpoint, a bold hand nine times from the 3×3 neighborhood. -/
def handOrigins (x y : ℚ) : HandThickness → List (ℚ × ℚ)
  | .thin => [(x, y)]
  | .bold =>
    [(x - 1, y + 1), (x, y + 1), (x + 1, y + 1),
     (x - 1, y), (x, y), (x + 1, y),
     (x - 1, y - 1), (x, y - 1), (x + 1, y - 1)]

/-- The `get_point` closure of `draw_hand` (`src/clock.rs:275`). -/
def getPoint (ox oy dirX dirY hyp : ℚ) : IPoint :=
  (ratTrunc (ox + hyp * dirX), ratTrunc (oy + hyp * dirY))

/-- The `startpoint` of `draw_hand` (`src/clock.rs:282`). -/
def handStartpoint (radius : ℚ) (hand : Hand) (origin : ℚ × ℚ) (dirX dirY : ℚ) : IPoint :=
  match hand.lineStart with
  | .fromCenter => getPoint origin.1 origin.2 dirX dirY 0
  | .fromCircumference => getPoint origin.1 origin.2 dirX dirY (radius * (1 - hand.length))

/-- The `endpoint` of `draw_hand` (`src/clock.rs:288`). -/
def handEndpoint (radius : ℚ) (hand : Hand) (origin : ℚ × ℚ) (dirX dirY : ℚ) : IPoint :=
  match hand.lineStart with
  | .fromCenter => getPoint origin.1 origin.2 dirX dirY (radius * hand.length)
  | .fromCircumference => getPoint origin.1 origin.2 dirX dirY radius

/-- The `points` list of `draw_hand` (`src/clock.rs:293`): the Bresenham
enumeration from startpoint to endpoint, each point's `y` inverted once
(`matrix.height as isize - y`) to convert from the Cartesian frame to the
row-major grid. -/
def handGridPoints (height : ℕ) (radius : ℚ) (hand : Hand) (origin : ℚ × ℚ)
    (dirX dirY : ℚ) : List Point :=
  (bresenham (handStartpoint radius hand origin dirX dirY)
      (handEndpoint radius hand origin dirX dirY)).map
    fun p => ⟨p.1, (height : Int) - p.2, hand.color⟩

/-- `Matrix::draw_hand` (`src/clock.rs:242`), with the trigonometric
direction `(dirX, dirY)` supplied exactly (see `Hand`). -/
def Matrix.drawHand (m : Matrix) (hand : Hand) (dirX dirY : ℚ) : Except String Matrix :=
  (handOrigins m.midpointX m.midpointY hand.thickness).foldlM
    (fun acc origin =>
      acc.drawUsingPoints (handGridPoints acc.height m.circleRadius hand origin dirX dirY))
    m

/-- Modelled from the spec (claim C6 comparison point): the same circle
rasterization as `Matrix.drawCircle`, but with each generated point's `y`
inverted once (`grid_y = grid_height - cartesian_y`) before indexing, which
is what the spec's coordinate convention prescribes for every drawing
routine. -/
def Matrix.drawCircleYInverted (m : Matrix) (color : Color) : Except String Matrix :=
  (bresenhamCircle (ratTrunc m.midpointX) (ratTrunc m.midpointY)
      (ratTrunc m.circleRadius)).foldlM
    (fun acc p => acc.setCell p.1 ((acc.height : Int) - p.2) ⟨color⟩) m

/-! ## `Matrix::diff` and `generate_points` (`src/clock.rs:331,398`) -/

/-- `src/clock.rs` `struct DiffUpdate`. -/
structure DiffUpdate where
  x : ℕ
  y : ℕ
  cell : Option Cell
deriving DecidableEq

/-- `generate_points` (`src/clock.rs:398`): all grid positions `(x, y)` in
row-major order. -/
def generatePoints (width height : ℕ) : List (ℕ × ℕ) :=
  (List.range height).flatMap fun y => (List.range width).map fun x => (x, y)

/-- `Matrix::diff` (`src/clock.rs:331`): panics (here: errs) on a width or
height mismatch, otherwise keeps, in row-major order, one update per
position at which the two frames disagree, carrying the new frame's cell.
The in-range indexing `cells[y][x]` is embedded by the total `cellAt`
(identical to the Rust behavior on the well-formed matrices the program
builds). -/
def Matrix.diff (old other : Matrix) : Except String (List DiffUpdate) :=
  if old.width ≠ other.width then
    .error "Diff error: old width and new width differ"
  else if old.height ≠ other.height then
    .error "Diff error: old height and new height differ"
  else
    .ok ((generatePoints old.width old.height).filterMap fun p =>
      let oldCell := old.cellAt p.2 p.1
      let newCell := other.cellAt p.2 p.1
      if oldCell = newCell then none
      else some ⟨p.1, p.2, newCell⟩)

/-! ## `draw_clock`: hand angles and logical clock width
(`src/clock.rs:111-163`) -/

/-- The (shadowed) `second` variable of `draw_clock` (`src/clock.rs:156`):
the fractional millisecond term is added exactly when the tick interval is
below 1000 ms. -/
def secondWithMillis (tickMillis second millisecond : ℕ) : ℚ :=
  if tickMillis < 1000 then (second : ℚ) + (millisecond : ℚ) / 1000
  else (second : ℚ)

/-- `degree_second` (`src/clock.rs:161`). -/
def degreeSecond (tickMillis second millisecond : ℕ) : ℚ :=
  secondWithMillis tickMillis second millisecond / 60 * 360

/-- `degree_minute` (`src/clock.rs:162`): note that it uses the shadowed
`second` value, fractional term included. -/
def degreeMinute (tickMillis minute second millisecond : ℕ) : ℚ :=
  ((minute : ℚ) + secondWithMillis tickMillis second millisecond / 60) / 60 * 360

/-- `degree_hour` (`src/clock.rs:163`); the hour was already reduced mod 12
at `src/clock.rs:154`. -/
def degreeHour (hour minute : ℕ) : ℚ :=
  (((hour % 12 : ℕ) : ℚ) + (minute : ℚ) / 60) / 12 * 360

/-- `clock_width` (`src/clock.rs:115`): the logical clock width, the screen
width divided by the aspect ratio, cast `as usize` (saturating truncation). -/
def clockWidth (screenWidth : ℕ) (aspect : ℚ) : ℕ :=
  (ratTrunc ((screenWidth : ℚ) / aspect)).toNat

/-! ## The key handler of `run_clock` (`src/clock.rs:62-98`) -/

/-- Outcome of one key event: continue with a (possibly adjusted) aspect
ratio, or quit. -/
inductive KeyOutcome where
  | cont (aspect : ℚ)
  | quit
deriving DecidableEq

/-- The key branch of the event loop (`src/clock.rs:67-90`): `+`/`=` add
`0.1` to the aspect ratio, `-` subtracts `0.1` only when the ratio exceeds
`1.0`, `0` resets it to `2.0`, `q` or ctrl-`c` quits; other keys are
ignored. -/
def handleKeyEvent (code : Char) (ctrl : Bool) (aspect : ℚ) : KeyOutcome :=
  if code = '+' ∨ code = '=' then .cont (aspect + 1 / 10)
  else if code = '-' then .cont (if 1 < aspect then aspect - 1 / 10 else aspect)
  else if code = '0' then .cont 2
  else if code = 'q' ∨ (code = 'c' ∧ ctrl = true) then .quit
  else .cont aspect

/-- The aspect ratio after one key event (unchanged on quit, which exits the
process without touching the ratio). -/
def applyKey (aspect : ℚ) (code : Char) : ℚ :=
  match handleKeyEvent code false aspect with
  | .cont a => a
  | .quit => aspect

/-! ## Terminal-state commands issued by `run_clock`
(`src/clock.rs:48-54` and `83-90`), as an explicit trace -/

inductive TermCommand where
  | enableRawMode
  | disableRawMode
  | hideCursor
  | showCursor
  | clearAll
  | exitProcess (code : ℕ)
deriving DecidableEq

/-- The commands `run_clock` issues at startup (`src/clock.rs:48-54`):
enable raw mode, hide the cursor, clear the screen. -/
def startupCommands : List TermCommand :=
  [.enableRawMode, .hideCursor, .clearAll]

/-- The commands the quit branch issues (`src/clock.rs:83-90`): clear the
screen, show the cursor, exit the process with status 0.  No other command
runs between these and process exit. -/
def quitCommands : List TermCommand :=
  [.clearAll, .showCursor, .exitProcess 0]

/-! ## The rescale pixel encoding (`src/clock.rs:314-327,411-441`) -/

/-- A 24-bit pixel of the intermediate `ImageBuffer`. -/
abbrev Pixel := ℕ × ℕ × ℕ

/-- Rust cast `as u8` on a finite float: saturating truncation. -/
def f32ToU8 (q : ℚ) : ℕ :=
  (max 0 (min 255 (ratTrunc q))).toNat

/-- The per-cell body of `matrix_to_luma_image_buffer` (`src/clock.rs:411`):
an empty cell becomes the pure-white pixel, a colored cell its byte
channels. -/
def encodeCell : Option Cell → Pixel
  | some cell => (f32ToU8 cell.color.1, f32ToU8 cell.color.2.1, f32ToU8 cell.color.2.2)
  | none => (255, 255, 255)

/-- The per-pixel body of `luma_image_buffer_to_matrix` (`src/clock.rs:426`):
a pure-white pixel decodes to an empty cell, anything else to a cell whose
channels are the pixel's bytes. -/
def decodePixel : Pixel → Option Cell
  | (r, g, b) =>
    if (r, g, b) ≠ ((255 : ℕ), (255 : ℕ), (255 : ℕ)) then
      some ⟨((r : ℚ), (g : ℚ), (b : ℚ))⟩
    else none

/-- One output cell of `Matrix::rescale` (`src/clock.rs:314`): the matrix is
encoded to pixels, resized, and decoded back.  `image::imageops::resize`
with `FilterType::Nearest` copies, for each output pixel, one input pixel;
which one is abstracted by the `sampler` argument, so every statement below
quantified over all samplers covers the crate's actual nearest-neighbor
index arithmetic. -/
def rescaledCellAt (m : Matrix) (sampler : ℕ × ℕ → ℕ × ℕ) (p : ℕ × ℕ) : Option Cell :=
  decodePixel (encodeCell (m.cellAt (sampler p).2 (sampler p).1))

/-!
# Theorems

First the sanity checks and helper lemmas, then one theorem per claim
(with its counterexample and witness where applicable).
-/

example : bresenham (0, 1) (6, 4) = [(0, 1), (1, 1), (2, 2), (3, 2), (4, 3), (5, 3)] := by
  decide

example : bresenham (0, 0) (0, 0) = [] := by decide

example : bresenham (4, 4) (5, 0) = [(4, 4), (4, 3), (4, 2), (4, 1)] := by decide

example : bresenhamCircle 2 2 1 = [(3, 2), (2, 3), (1, 2), (2, 1)] := by decide

/-! ### Properties of the embedded `bresenham` iterator -/

lemma fromOctant0_toOctant0 (o : Nat) (p : IPoint) :
    fromOctant0 o (toOctant0 o p) = p := by
  obtain ⟨a, b⟩ := p
  match o with
  | 0 | 1 | 2 | 3 | 4 | 5 | 6 => simp [toOctant0, fromOctant0]
  | n + 7 => simp [toOctant0, fromOctant0]

lemma toOctant0_fromOctant0 (o : Nat) (p : IPoint) :
    toOctant0 o (fromOctant0 o p) = p := by
  obtain ⟨a, b⟩ := p
  match o with
  | 0 | 1 | 2 | 3 | 4 | 5 | 6 => simp [toOctant0, fromOctant0]
  | n + 7 => simp [toOctant0, fromOctant0]

lemma cheb_fromOctant0 (o : Nat) (p q : IPoint) :
    cheb (fromOctant0 o p) (fromOctant0 o q) = cheb p q := by
  obtain ⟨a, b⟩ := p
  obtain ⟨c, d⟩ := q
  match o with
  | 0 | 1 | 2 | 3 | 4 | 5 | 6 => simp only [fromOctant0, cheb] <;> omega
  | n + 7 => simp only [fromOctant0, cheb] <;> omega

/-- After mapping both endpoints into the computed octant, the deltas satisfy
the octant-0 precondition `0 ≤ dy ≤ dx`. -/
lemma octant0_deltas (s e : IPoint) :
    0 ≤ (toOctant0 (octantFromPoints s e) e).2 - (toOctant0 (octantFromPoints s e) s).2 ∧
      (toOctant0 (octantFromPoints s e) e).2 - (toOctant0 (octantFromPoints s e) s).2 ≤
        (toOctant0 (octantFromPoints s e) e).1 - (toOctant0 (octantFromPoints s e) s).1 := by
  obtain ⟨sx, sy⟩ := s
  obtain ⟨ex, ey⟩ := e
  simp only [octantFromPoints]
  split_ifs <;> simp only [toOctant0] <;> omega

lemma bresRun_succ (m : Nat) (st : BresState) (h : st.x < st.x1) :
    bresRun (m + 1) st = (st.x, st.y) :: bresRun m (bresAdvance st) := by
  rw [bresRun]
  rw [show bresStep st = some ((st.x, st.y), bresAdvance st) from by
    simp only [bresStep, bresAdvance]
    rw [if_neg (by omega)]]

lemma bresAdvance_x (st : BresState) : (bresAdvance st).x = st.x + 1 := rfl

lemma bresAdvance_x1 (st : BresState) : (bresAdvance st).x1 = st.x1 := rfl

lemma bresAdvance_dx (st : BresState) : (bresAdvance st).dx = st.dx := rfl

lemma bresAdvance_dy (st : BresState) : (bresAdvance st).dy = st.dy := rfl

lemma bresAdvance_y (st : BresState) :
    (bresAdvance st).y = if 0 ≤ st.diff then st.y + 1 else st.y := by
  simp only [bresAdvance]
  split_ifs <;> rfl

lemma bresAdvance_diff (st : BresState) :
    (bresAdvance st).diff =
      (if 0 ≤ st.diff then st.diff - st.dx else st.diff) + st.dy := by
  simp only [bresAdvance]
  split_ifs <;> rfl

lemma bresRun_head (n : Nat) (st : BresState) (hn : 0 < n) (hx1 : st.x1 = st.x + n) :
    (bresRun n st).head? = some (st.x, st.y) := by
  cases n with
  | zero => omega
  | succ m => rw [bresRun_succ m st (by omega), List.head?_cons]

lemma bresRun_chain (n : Nat) (st : BresState) (hx1 : st.x1 = st.x + n) :
    List.Chain' (fun p q => cheb p q = 1) (bresRun n st) := by
  induction n generalizing st with
  | zero => simp [bresRun]
  | succ m ih =>
    rw [bresRun_succ m st (by omega)]
    rw [List.chain'_cons']
    have hx' : (bresAdvance st).x1 = (bresAdvance st).x + m := by
      rw [bresAdvance_x1, bresAdvance_x]; push_cast at hx1 ⊢; omega
    refine ⟨?_, ih _ hx'⟩
    intro q hq
    rcases Nat.eq_zero_or_pos m with hm | hm
    · subst hm; simp [bresRun] at hq
    · rw [bresRun_head m _ hm hx'] at hq
      simp only [Option.mem_def, Option.some.injEq] at hq
      subst hq
      rw [bresAdvance_x, bresAdvance_y]
      simp only [cheb]
      split_ifs <;> omega

lemma bresRun_mem_x (n : Nat) (st : BresState) :
    ∀ p ∈ bresRun n st, st.x ≤ p.1 ∧ p.1 < st.x1 := by
  induction n generalizing st with
  | zero => simp [bresRun]
  | succ m ih =>
    intro p hp
    by_cases h : st.x < st.x1
    · rw [bresRun_succ m st h] at hp
      rcases List.mem_cons.mp hp with rfl | hp
      · exact ⟨le_refl _, h⟩
      · have := ih _ p hp
        rw [bresAdvance_x, bresAdvance_x1] at this
        omega
    · rw [bresRun, show bresStep st = none from by
        simp only [bresStep]; rw [if_pos (by omega)]] at hp
      simp at hp

/-- `bresRun_succ` with the advanced state written with the conditional
distributed over the pair. -/
lemma bresRun_succ_mk (m : Nat) (x y dx dy x1 diff : Int) (h : x < x1) :
    bresRun (m + 1) ⟨x, y, dx, dy, x1, diff⟩ =
      (x, y) :: bresRun m ⟨x + 1, if 0 ≤ diff then y + 1 else y, dx, dy, x1,
        (if 0 ≤ diff then diff - dx else diff) + dy⟩ := by
  rw [bresRun_succ m _ h]
  simp only [bresAdvance]
  split_ifs <;> rfl

/-- The invariant-carrying last-point lemma: if the octant-0 preconditions
and the accumulated-error invariant hold, the final emitted point sits in
column `x1 - 1` and within one row of the target row `y1`. -/
lemma bresRun_last (y1 : Int) :
    ∀ (n : Nat) (x y dx dy x1 diff : Int), 0 < dx → 0 ≤ dy → dy ≤ dx →
      x1 = x + n → 0 < n →
      diff = dy - dx - (n : Int) * dy + (y1 - y) * dx →
      -dx ≤ diff → diff ≤ dy - 1 →
      ∃ q, (bresRun n ⟨x, y, dx, dy, x1, diff⟩).getLast? = some q ∧
        q.1 = x1 - 1 ∧ (y1 - q.2).natAbs ≤ 1 := by
  intro n
  induction n with
  | zero => omega
  | succ m ih =>
    intro x y dx dy x1 diff hdx hdy0 hdydx hx1 _ hinv hlo hhi
    have hguard : x < x1 := by omega
    rcases Nat.eq_zero_or_pos m with hm | hm
    · subst hm
      refine ⟨(x, y), ?_, by omega, ?_⟩
      · rw [bresRun_succ_mk 0 x y dx dy x1 diff hguard]
        simp [bresRun]
      · have hb : diff = (y1 - y - 1) * dx := by
          rw [hinv]; push_cast; ring
        have h1 : 0 ≤ y1 - y := by nlinarith
        have h2 : y1 - y ≤ 1 := by nlinarith
        omega
    · have hrec := ih (x + 1) (if 0 ≤ diff then y + 1 else y) dx dy x1
        ((if 0 ≤ diff then diff - dx else diff) + dy)
        hdx hdy0 hdydx (by push_cast at hx1 ⊢; omega) hm ?inv ?lo ?hi
      case inv =>
        split_ifs with hd
        · rw [hinv]; push_cast; ring
        · rw [hinv]; push_cast; ring
      case lo =>
        split_ifs with hd <;> omega
      case hi =>
        split_ifs with hd <;> omega
      obtain ⟨q, hqlast, hqx, hqy⟩ := hrec
      refine ⟨q, ?_, hqx, hqy⟩
      rw [bresRun_succ_mk m x y dx dy x1 diff hguard]
      rcases hlist : bresRun m _ with _ | ⟨r, rest⟩
      · rw [hlist] at hqlast; simp at hqlast
      · rw [hlist] at hqlast
        rw [List.getLast?_cons_cons]
        exact hqlast

lemma bresenham_eq (s e : IPoint) :
    bresenham s e =
      (bresRun ((toOctant0 (octantFromPoints s e) e).1 -
            (toOctant0 (octantFromPoints s e) s).1).toNat
          ⟨(toOctant0 (octantFromPoints s e) s).1, (toOctant0 (octantFromPoints s e) s).2,
            (toOctant0 (octantFromPoints s e) e).1 - (toOctant0 (octantFromPoints s e) s).1,
            (toOctant0 (octantFromPoints s e) e).2 - (toOctant0 (octantFromPoints s e) s).2,
            (toOctant0 (octantFromPoints s e) e).1,
            (toOctant0 (octantFromPoints s e) e).2 - (toOctant0 (octantFromPoints s e) s).2 -
              ((toOctant0 (octantFromPoints s e) e).1 -
                (toOctant0 (octantFromPoints s e) s).1)⟩).map
        (fromOctant0 (octantFromPoints s e)) := rfl

/-- Claim C5 (amended): for distinct endpoints the embedded
`bresenham::Bresenham` enumeration starts at `p0`, every consecutive pair of
points is 8-connected (Chebyshev distance 1), the final point is 8-adjacent
to `p1`, but `p1` itself is excluded from the sequence (the crate iterates
up to, but not including, the end point). -/
theorem bresenham_path_endpoints (p0 p1 : IPoint) (h : p0 ≠ p1) :
    (bresenham p0 p1).head? = some p0 ∧
      List.Chain' (fun a b => cheb a b = 1) (bresenham p0 p1) ∧
      (∃ q, (bresenham p0 p1).getLast? = some q ∧ cheb q p1 = 1) ∧
      p1 ∉ bresenham p0 p1 := by
  have hdel := octant0_deltas p0 p1
  set o := octantFromPoints p0 p1 with ho
  set s' := toOctant0 o p0 with hs'
  set e' := toOctant0 o p1 with he'
  set dx := e'.1 - s'.1 with hdx
  set dy := e'.2 - s'.2 with hdy
  have hp0 : fromOctant0 o s' = p0 := fromOctant0_toOctant0 o p0
  have hp1 : fromOctant0 o e' = p1 := fromOctant0_toOctant0 o p1
  have hne : s' ≠ e' := by
    intro hh
    exact h (by rw [← hp0, ← hp1, hh])
  have hdxpos : 0 < dx := by
    rcases eq_or_lt_of_le (le_trans hdel.1 hdel.2) with heq | hlt
    · exfalso
      apply hne
      have h1 : e'.1 = s'.1 := by omega
      have h2 : e'.2 = s'.2 := by omega
      exact Prod.ext h1.symm h2.symm
    · exact hlt
  have hcast : ((dx.toNat : ℕ) : ℤ) = dx := Int.toNat_of_nonneg (le_of_lt hdxpos)
  have hnpos : 0 < dx.toNat := by omega
  have hx1 : e'.1 = s'.1 + (dx.toNat : ℤ) := by omega
  refine ⟨?_, ?_, ?_, ?_⟩
  · rw [bresenham_eq, ← ho, ← hs', ← he', List.head?_map,
      bresRun_head dx.toNat _ hnpos hx1]
    exact congrArg (Option.map (fromOctant0 o)) rfl |>.trans
      (congrArg some ((congrArg (fromOctant0 o) (Prod.mk.eta (p := s'))).trans hp0))
  · rw [bresenham_eq, ← ho, ← hs', ← he']
    rw [List.chain'_map]
    exact (bresRun_chain dx.toNat _ hx1).imp fun {a b} hab => by
      rw [cheb_fromOctant0, hab]
  · obtain ⟨q, hqlast, hqx, hqy⟩ :=
      bresRun_last e'.2 dx.toNat s'.1 s'.2 dx dy e'.1 (dy - dx)
        hdxpos hdel.1 hdel.2 hx1 hnpos
        (by rw [hcast]; ring) (by omega) (by omega)
    refine ⟨fromOctant0 o q, ?_, ?_⟩
    · rw [bresenham_eq, ← ho, ← hs', ← he', List.getLast?_map, hqlast]
      rfl
    · rw [← hp1, cheb_fromOctant0]
      simp only [cheb]
      omega
  · intro hmem
    rw [bresenham_eq, ← ho, ← hs', ← he'] at hmem
    obtain ⟨q, hq, hfq⟩ := List.mem_map.mp hmem
    have hqe : q = e' := by
      have := toOctant0_fromOctant0 o q
      rw [hfq] at this
      rw [← this, ← he']
    have hmx := bresRun_mem_x dx.toNat _ q hq
    simp only at hmx
    rw [hqe] at hmx
    omega

/-- Claim C5 counterexample: the enumeration for the segment from `(0,0)` to
`(2,0)` is `[(0,0), (1,0)]`; it does not end at — indeed does not contain —
the endpoint `(2,0)`, contradicting the claim that both endpoints are
included. -/
theorem bresenham_excludes_endpoint :
    bresenham (0, 0) (2, 0) = [(0, 0), (1, 0)] ∧
      (bresenham (0, 0) (2, 0)).getLast? ≠ some (2, 0) ∧
      ((2, 0) : IPoint) ∉ bresenham (0, 0) (2, 0) := by
  refine ⟨by decide, by decide, by decide⟩

/-- Witness for `bresenham_path_endpoints` at the concrete endpoints
`(0,0)` and `(3,2)`. -/
theorem bresenham_path_endpoints_witness :
    ((0, 0) : IPoint) ≠ (3, 2) ∧
      ((bresenham (0, 0) (3, 2)).head? = some (0, 0) ∧
        List.Chain' (fun a b => cheb a b = 1) (bresenham (0, 0) (3, 2)) ∧
        (∃ q, (bresenham (0, 0) (3, 2)).getLast? = some q ∧ cheb q (3, 2) = 1) ∧
        ((3, 2) : IPoint) ∉ bresenham (0, 0) (3, 2)) :=
  ⟨by decide, bresenham_path_endpoints (0, 0) (3, 2) (by decide)⟩

/-! ### Cell-write bookkeeping for the drawing routines -/

lemma getD_eq_getElem? {α : Type} (l : List α) (i : ℕ) (d : α) :
    l.getD i d = (l[i]?).getD d := by
  simp [List.getD]

lemma setCell_ok_height (m : Matrix) (x y : Int) (cell : Cell) (m' : Matrix)
    (h : m.setCell x y cell = .ok m') : m'.height = m.height := by
  unfold Matrix.setCell at h
  split_ifs at h with hc
  simp only [Except.ok.injEq] at h
  subst h
  rfl

/-- A successful `setCell` changes no cell other than the one at its own
(in-range, hence nonnegative) indices. -/
lemma setCell_changed (m : Matrix) (x y : Int) (cell : Cell) (m' : Matrix)
    (h : m.setCell x y cell = .ok m') :
    ∀ r c : ℕ, m'.cellAt r c ≠ m.cellAt r c → (r : ℤ) = y ∧ (c : ℤ) = x := by
  intro r c hne
  unfold Matrix.setCell at h
  split_ifs at h with hc
  simp only [Except.ok.injEq] at h
  subst h
  by_cases hr : r = y.toNat
  · subst hr
    by_cases hcx : c = x.toNat
    · subst hcx
      exact ⟨by omega, by omega⟩
    · exfalso
      apply hne
      unfold Matrix.cellAt
      simp only
      have hlen : y.toNat < m.cells.length := by omega
      rw [getD_eq_getElem?
          (m.cells.set y.toNat ((m.cells.getD y.toNat []).set x.toNat (some cell)))
          y.toNat []]
      rw [List.getElem?_set_self hlen]
      simp only [Option.getD_some]
      rw [getD_eq_getElem? ((m.cells.getD y.toNat []).set x.toNat (some cell)) c none]
      rw [List.getElem?_set_ne (show x.toNat ≠ c from fun hh => hcx hh.symm)]
      rw [← getD_eq_getElem?]
  · exfalso
    apply hne
    unfold Matrix.cellAt
    simp only
    rw [getD_eq_getElem?
        (m.cells.set y.toNat ((m.cells.getD y.toNat []).set x.toNat (some cell))) r []]
    rw [List.getElem?_set_ne (show y.toNat ≠ r from fun hh => hr hh.symm)]
    rw [← getD_eq_getElem?]

/-- Height is preserved by any fold of height-preserving steps. -/
lemma foldlM_ok_height {α : Type} (g : Matrix → α → Except String Matrix)
    (hg : ∀ mm a mm', g mm a = .ok mm' → mm'.height = mm.height) :
    ∀ (l : List α) (m m' : Matrix), l.foldlM g m = .ok m' → m'.height = m.height := by
  intro l
  induction l with
  | nil =>
    intro m m' h
    have : m = m' := by
      have h' : (Except.ok m : Except String Matrix) = .ok m' := h
      simpa using h'
    rw [← this]
  | cons a l ih =>
    intro m m' h
    have hcons : List.foldlM g m (a :: l) = g m a >>= fun s => List.foldlM g s l := by
      simp [List.foldlM]
    rw [hcons] at h
    rcases hga : g m a with e | m1
    · rw [hga] at h
      exact Except.noConfusion h
    · rw [hga] at h
      have h1 : List.foldlM g m1 l = .ok m' := h
      rw [ih m1 m' h1, hg m a m1 hga]

/-- Any cell changed by a fold of write steps was changed by one of the
steps, and an invariant `Q` preserved by the steps lets the per-step
characterization `P` be transported to the start state. -/
lemma foldlM_changed {α : Type} (g : Matrix → α → Except String Matrix)
    (Q : Matrix → Prop) (P : α → ℕ → ℕ → Prop)
    (hQ : ∀ mm a mm', g mm a = .ok mm' → Q mm → Q mm')
    (hstep : ∀ mm a mm', Q mm → g mm a = .ok mm' →
      ∀ r c : ℕ, mm'.cellAt r c ≠ mm.cellAt r c → P a r c) :
    ∀ (l : List α) (m m' : Matrix), Q m → l.foldlM g m = .ok m' →
      ∀ r c : ℕ, m'.cellAt r c ≠ m.cellAt r c → ∃ a ∈ l, P a r c := by
  intro l
  induction l with
  | nil =>
    intro m m' _ h r c hne
    exfalso
    apply hne
    have h' : (Except.ok m : Except String Matrix) = .ok m' := h
    have : m = m' := by simpa using h'
    rw [this]
  | cons a l ih =>
    intro m m' hQm h r c hne
    have hcons : List.foldlM g m (a :: l) = g m a >>= fun s => List.foldlM g s l := by
      simp [List.foldlM]
    rw [hcons] at h
    rcases hga : g m a with e | m1
    · rw [hga] at h
      exact Except.noConfusion h
    · rw [hga] at h
      have h1 : List.foldlM g m1 l = .ok m' := h
      by_cases hmid : m'.cellAt r c = m1.cellAt r c
    -- the change happened in the first step or in the tail
      · have hfirst : m1.cellAt r c ≠ m.cellAt r c := by
          rw [← hmid]; exact hne
        exact ⟨a, List.mem_cons_self a l, hstep m a m1 hQm hga r c hfirst⟩
      · obtain ⟨b, hb, hPb⟩ := ih m1 m' (hQ m a m1 hga hQm) h1 r c hmid
        exact ⟨b, List.mem_cons_of_mem a hb, hPb⟩

lemma drawUsingPoints_height (m : Matrix) (pts : List Point) (m' : Matrix)
    (h : m.drawUsingPoints pts = .ok m') : m'.height = m.height := by
  unfold Matrix.drawUsingPoints at h
  exact foldlM_ok_height _ (fun mm p mm' hp => setCell_ok_height mm p.x p.y ⟨p.color⟩ mm' hp)
    pts m m' h

/-- Any cell changed by `draw_using_points` carries the row/column of one of
the supplied points. -/
lemma drawUsingPoints_changed (m : Matrix) (pts : List Point) (m' : Matrix)
    (h : m.drawUsingPoints pts = .ok m') :
    ∀ r c : ℕ, m'.cellAt r c ≠ m.cellAt r c →
      ∃ p ∈ pts, (r : ℤ) = p.y ∧ (c : ℤ) = p.x := by
  intro r c hne
  unfold Matrix.drawUsingPoints at h
  exact foldlM_changed _ (fun _ => True)
    (fun p r c => (r : ℤ) = p.y ∧ (c : ℤ) = p.x)
    (fun _ _ _ _ _ => trivial)
    (fun mm p mm' _ hp r c hcc =>
      ⟨(setCell_changed mm p.x p.y ⟨p.color⟩ mm' hp r c hcc).1,
        (setCell_changed mm p.x p.y ⟨p.color⟩ mm' hp r c hcc).2⟩)
    pts m m' trivial h r c hne

/-- Claim C6 (amended): the hand rasterizer inverts each generated point's
`y` exactly once — every cell it changes sits at column `p.1` and row
`height - p.2` for a point `p` of the underlying Bresenham enumeration —
while the circle rasterizer applies no inversion at all: every cell it
changes sits at row `p.2` (the raw generated `y`) and column `p.1` of a
generated circle point. -/
theorem hand_inverts_y_once_circle_does_not :
    (∀ (m m' : Matrix) (hand : Hand) (dirX dirY : ℚ),
        m.drawHand hand dirX dirY = .ok m' →
        ∀ r c : ℕ, m'.cellAt r c ≠ m.cellAt r c →
          ∃ origin ∈ handOrigins m.midpointX m.midpointY hand.thickness,
            ∃ p ∈ bresenham (handStartpoint m.circleRadius hand origin dirX dirY)
                (handEndpoint m.circleRadius hand origin dirX dirY),
              (c : ℤ) = p.1 ∧ (r : ℤ) = (m.height : ℤ) - p.2) ∧
      (∀ (m m' : Matrix) (color : Color),
        m.drawCircle color = .ok m' →
        ∀ r c : ℕ, m'.cellAt r c ≠ m.cellAt r c →
          (((c : ℤ), (r : ℤ)) : IPoint) ∈
            bresenhamCircle (ratTrunc m.midpointX) (ratTrunc m.midpointY)
              (ratTrunc m.circleRadius)) := by
  constructor
  · intro m m' hand dirX dirY hok r c hne
    unfold Matrix.drawHand at hok
    exact foldlM_changed _ (fun mm => mm.height = m.height)
      (fun origin r c =>
        ∃ p ∈ bresenham (handStartpoint m.circleRadius hand origin dirX dirY)
            (handEndpoint m.circleRadius hand origin dirX dirY),
          (c : ℤ) = p.1 ∧ (r : ℤ) = (m.height : ℤ) - p.2)
      (fun mm origin mm' hp hQ => by
        show mm'.height = m.height
        rw [drawUsingPoints_height mm _ mm' hp]; exact hQ)
      (fun mm origin mm' hQ hp r c hcc => by
        obtain ⟨pt, hpt, hry, hcx⟩ := drawUsingPoints_changed mm _ mm' hp r c hcc
        unfold handGridPoints at hpt
        obtain ⟨p, hpmem, hpeq⟩ := List.mem_map.mp hpt
        refine ⟨p, hpmem, ?_, ?_⟩
        · rw [hcx, ← hpeq]
        · rw [hry, ← hpeq]
          simp only
          rw [hQ])
      (handOrigins m.midpointX m.midpointY hand.thickness) m m' rfl hok r c hne
  · intro m m' color hok r c hne
    unfold Matrix.drawCircle at hok
    obtain ⟨p, hp, h1, h2⟩ := foldlM_changed _ (fun _ => True)
      (fun (p : IPoint) r c => (c : ℤ) = p.1 ∧ (r : ℤ) = p.2)
      (fun _ _ _ _ _ => trivial)
      (fun mm p mm' _ hp r c hcc =>
        ⟨(setCell_changed mm p.1 p.2 ⟨color⟩ mm' hp r c hcc).2,
          (setCell_changed mm p.1 p.2 ⟨color⟩ mm' hp r c hcc).1⟩)
      (bresenhamCircle (ratTrunc m.midpointX) (ratTrunc m.midpointY)
        (ratTrunc m.circleRadius)) m m' trivial hok r c hne
    have : (((c : ℤ), (r : ℤ)) : IPoint) = p := Prod.ext h1 h2
    rw [this]
    exact hp

/-- Claim C6 counterexample: on a 5×5 grid the circle rasterizer generates
the point `(2, 0)` and writes it at row 0 — the raw `y`, not the inverted
row `5 - 0 = 5`.  Concretely, the code's `draw_circle` succeeds, while the
spec-prescribed once-inverted variant of the very same point stream writes
row 5 of a 5-row grid and fails: the code demonstrably does not invert. -/
theorem draw_circle_not_inverted :
    (((2 : ℤ), (0 : ℤ)) : IPoint) ∈
        bresenhamCircle (ratTrunc (Matrix.new 5 5).midpointX)
          (ratTrunc (Matrix.new 5 5).midpointY)
          (ratTrunc (Matrix.new 5 5).circleRadius) ∧
      (5 : ℤ) - 0 ≠ 0 ∧
      Except.map (fun m => (m.cellAt 0 2).isSome)
          (Matrix.drawCircle (Matrix.new 5 5) (0, 0, 0)) = .ok true ∧
      Matrix.drawCircleYInverted (Matrix.new 5 5) (0, 0, 0) =
        .error "index out of bounds" := by
  have h1 : ratTrunc (Matrix.new 5 5).midpointX = 2 := by
    norm_num [Matrix.new, ratTrunc]
  have h2 : ratTrunc (Matrix.new 5 5).midpointY = 2 := by
    norm_num [Matrix.new, ratTrunc]
  have h3 : ratTrunc (Matrix.new 5 5).circleRadius = 2 := by
    norm_num [Matrix.new, ratTrunc]
  refine ⟨?_, by decide, ?_, ?_⟩
  · rw [h1, h2, h3]
    decide
  · unfold Matrix.drawCircle
    rw [h1, h2, h3]
    decide
  · unfold Matrix.drawCircleYInverted
    rw [h1, h2, h3]
    decide

/-- Witness for `hand_inverts_y_once_circle_does_not`: the hand part at a
2×2 matrix with an eastward thin hand (whose enumeration is empty, so the
draw succeeds), and the circle part at a 4×4 matrix (radius 1). -/
theorem hand_inverts_y_once_circle_does_not_witness :
    (Matrix.drawHand (Matrix.new 2 2) ⟨.thin, 9 / 10, .fromCenter, (0, 0, 0)⟩ 1 0 =
        .ok (Matrix.new 2 2) ∧
      (∀ r c : ℕ,
        (Matrix.new 2 2).cellAt r c ≠ (Matrix.new 2 2).cellAt r c →
          ∃ origin ∈ handOrigins (Matrix.new 2 2).midpointX (Matrix.new 2 2).midpointY
              HandThickness.thin,
            ∃ p ∈ bresenham
                (handStartpoint (Matrix.new 2 2).circleRadius
                  ⟨.thin, 9 / 10, .fromCenter, (0, 0, 0)⟩ origin 1 0)
                (handEndpoint (Matrix.new 2 2).circleRadius
                  ⟨.thin, 9 / 10, .fromCenter, (0, 0, 0)⟩ origin 1 0),
              (c : ℤ) = p.1 ∧ (r : ℤ) = ((Matrix.new 2 2).height : ℤ) - p.2)) ∧
      (Matrix.drawCircle (Matrix.new 4 4) (0, 0, 0) =
          .ok { cells :=
                  [[none, none, none, none],
                   [none, none, some ⟨(0, 0, 0)⟩, none],
                   [none, some ⟨(0, 0, 0)⟩, none, some ⟨(0, 0, 0)⟩],
                   [none, none, some ⟨(0, 0, 0)⟩, none]]
                width := 4
                height := 4
                midpointX := 2
                midpointY := 2
                circleRadius := 20 / 11 } ∧
        (∀ r c : ℕ,
          ({ cells :=
                [[none, none, none, none],
                 [none, none, some ⟨(0, 0, 0)⟩, none],
                 [none, some ⟨(0, 0, 0)⟩, none, some ⟨(0, 0, 0)⟩],
                 [none, none, some ⟨(0, 0, 0)⟩, none]]
             width := 4
             height := 4
             midpointX := 2
             midpointY := 2
             circleRadius := 20 / 11 } : Matrix).cellAt r c ≠
              (Matrix.new 4 4).cellAt r c →
            (((c : ℤ), (r : ℤ)) : IPoint) ∈
              bresenhamCircle (ratTrunc (Matrix.new 4 4).midpointX)
                (ratTrunc (Matrix.new 4 4).midpointY)
                (ratTrunc (Matrix.new 4 4).circleRadius))) :=
  ⟨⟨by
      norm_num [Matrix.drawHand, Matrix.new, Matrix.drawUsingPoints, Matrix.setCell,
        handOrigins, handGridPoints, handStartpoint, handEndpoint, getPoint, ratTrunc,
        bresenham, octantFromPoints, toOctant0, fromOctant0, bresRun, bresStep,
        List.foldlM]
      rfl,
      hand_inverts_y_once_circle_does_not.1 (Matrix.new 2 2) (Matrix.new 2 2)
        ⟨.thin, 9 / 10, .fromCenter, (0, 0, 0)⟩ 1 0 (by
          norm_num [Matrix.drawHand, Matrix.new, Matrix.drawUsingPoints, Matrix.setCell,
            handOrigins, handGridPoints, handStartpoint, handEndpoint, getPoint, ratTrunc,
            bresenham, octantFromPoints, toOctant0, fromOctant0, bresRun, bresStep,
            List.foldlM]
          rfl)⟩,
    ⟨by
      norm_num [Matrix.drawCircle, Matrix.new, Matrix.setCell, bresenhamCircle,
        circleRun, circleNext, ratTrunc, List.foldlM]
      rfl,
      hand_inverts_y_once_circle_does_not.2 (Matrix.new 4 4) _ (0, 0, 0) (by
        norm_num [Matrix.drawCircle, Matrix.new, Matrix.setCell, bresenhamCircle,
          circleRun, circleNext, ratTrunc, List.foldlM]
        rfl)⟩⟩

/-- Claim C9 (code bug, concrete panic): on a 4-column, 2-row grid a bold
from-center hand of length 0.9 pointing west (the direction `draw_clock`
computes for degree 270, i.e. minute 45) makes `draw_hand` write row index
`height - 0 = 2` on a 2-row grid — the bold stencil origin one cell below
the midpoint yields the Cartesian point `(1, 0)`, inverted to row 2 — so the
unchecked indexing panics. -/
theorem draw_hand_bold_out_of_bounds :
    Matrix.drawHand (Matrix.new 4 2) ⟨.bold, 9 / 10, .fromCenter, (0, 0, 0)⟩ (-1) 0 =
      .error "index out of bounds" := by
  norm_num [Matrix.drawHand, Matrix.new, Matrix.drawUsingPoints, Matrix.setCell,
    handOrigins, handGridPoints, handStartpoint, handEndpoint, getPoint, ratTrunc,
    bresenham, octantFromPoints, toOctant0, fromOctant0, bresRun, bresStep,
    List.foldlM]
  decide

/-! ### The frame differencer -/

lemma generatePoints_mem (w h x y : ℕ) :
    (x, y) ∈ generatePoints w h ↔ x < w ∧ y < h := by
  simp only [generatePoints, List.mem_flatMap, List.mem_range, List.mem_map]
  constructor
  · rintro ⟨a, ha, b, hb, heq⟩
    obtain ⟨rfl, rfl⟩ := Prod.mk.injEq .. ▸ heq
    exact ⟨hb, ha⟩
  · rintro ⟨hx, hy⟩
    exact ⟨y, hy, x, hx, rfl⟩

lemma generatePoints_nodup (w h : ℕ) : (generatePoints w h).Nodup := by
  refine List.nodup_flatMap.mpr ⟨?_, ?_⟩
  · intro y _
    exact (List.nodup_range w).map fun a b hab => by
      exact (Prod.mk.injEq .. ▸ hab).1
  · refine (List.nodup_range h).imp ?_
    intro a b hab
    intro p hpa hpb
    simp only [List.mem_map] at hpa hpb
    obtain ⟨xa, _, rfl⟩ := hpa
    obtain ⟨xb, _, heq⟩ := hpb
    exact hab ((Prod.mk.injEq .. ▸ heq).2).symm

/-- The coordinates of the kept updates are exactly the positions at which
the two frames disagree. -/
lemma filterMap_diff_coords (old other : Matrix) (pts : List (ℕ × ℕ)) :
    ((pts.filterMap fun p =>
        if old.cellAt p.2 p.1 = other.cellAt p.2 p.1 then none
        else some (⟨p.1, p.2, other.cellAt p.2 p.1⟩ : DiffUpdate)).map
      fun u => (u.x, u.y)) =
    pts.filter fun p => decide (old.cellAt p.2 p.1 ≠ other.cellAt p.2 p.1) := by
  induction pts with
  | nil => rfl
  | cons p pts ih =>
    obtain ⟨x, y⟩ := p
    rw [List.filterMap_cons, List.filter_cons]
    by_cases hc : old.cellAt y x = other.cellAt y x
    · simp [hc, ih]
    · simp [hc, ih]

/-- Claim C1: diffing frames of identical dimensions succeeds and yields
exactly one update per position at which the frames disagree (the update
coordinates are duplicate-free and range over exactly the disagreeing
positions), each update carrying the new frame's cell; in particular
identical frames give an empty list, and an all-empty previous frame gives
exactly one update per non-empty cell of the new frame. -/
theorem diff_updates_characterization (P N : Matrix)
    (hw : P.width = N.width) (hh : P.height = N.height) :
    ∃ l, P.diff N = .ok l ∧
      (∀ u ∈ l, u.cell = N.cellAt u.y u.x) ∧
      (l.map fun u => (u.x, u.y)).Nodup ∧
      (∀ x y : ℕ, (x, y) ∈ l.map (fun u => (u.x, u.y)) ↔
        x < P.width ∧ y < P.height ∧ P.cellAt y x ≠ N.cellAt y x) ∧
      ((∀ y x : ℕ, P.cellAt y x = N.cellAt y x) → l = []) ∧
      ((∀ y x : ℕ, P.cellAt y x = none) →
        ∀ x y : ℕ, (x, y) ∈ l.map (fun u => (u.x, u.y)) ↔
          x < P.width ∧ y < P.height ∧ N.cellAt y x ≠ none) := by
  refine ⟨(generatePoints P.width P.height).filterMap fun p =>
      if P.cellAt p.2 p.1 = N.cellAt p.2 p.1 then none
      else some ⟨p.1, p.2, N.cellAt p.2 p.1⟩, ?_, ?_, ?_, ?_, ?_, ?_⟩
  · unfold Matrix.diff
    rw [if_neg (fun hcon => hcon hw), if_neg (fun hcon => hcon hh)]
  · intro u hu
    obtain ⟨p, _, heq⟩ := List.mem_filterMap.mp hu
    by_cases hc : P.cellAt p.2 p.1 = N.cellAt p.2 p.1
    · rw [if_pos hc] at heq
      exact Option.noConfusion heq
    · rw [if_neg hc] at heq
      obtain rfl := Option.some.inj heq
      rfl
  · rw [filterMap_diff_coords]
    exact (generatePoints_nodup P.width P.height).filter _
  · intro x y
    rw [filterMap_diff_coords, List.mem_filter]
    rw [generatePoints_mem]
    simp only [decide_eq_true_eq]
    constructor
    · rintro ⟨⟨hx, hy⟩, hne⟩
      exact ⟨hx, hy, hne⟩
    · rintro ⟨hx, hy, hne⟩
      exact ⟨⟨hx, hy⟩, hne⟩
  · intro hall
    have hcoords : ((generatePoints P.width P.height).filterMap fun p =>
        if P.cellAt p.2 p.1 = N.cellAt p.2 p.1 then none
        else some (⟨p.1, p.2, N.cellAt p.2 p.1⟩ : DiffUpdate)).map
          (fun u => (u.x, u.y)) = [] := by
      rw [filterMap_diff_coords]
      apply List.filter_eq_nil_iff.mpr
      intro p _
      simp [hall p.2 p.1]
    exact List.map_eq_nil_iff.mp hcoords
  · intro hempty x y
    rw [filterMap_diff_coords, List.mem_filter, generatePoints_mem]
    simp only [decide_eq_true_eq, hempty]
    constructor
    · rintro ⟨⟨hx, hy⟩, hne⟩
      exact ⟨hx, hy, fun hcon => hne hcon.symm⟩
    · rintro ⟨hx, hy, hne⟩
      exact ⟨⟨hx, hy⟩, fun hcon => hne hcon.symm⟩

/-- Witness for `diff_updates_characterization`: a 1×1 empty frame against a
1×1 frame with one colored cell. -/
theorem diff_updates_characterization_witness :
    ((Matrix.new 1 1).width =
        ({ Matrix.new 1 1 with cells := [[some ⟨(1, 2, 3)⟩]] } : Matrix).width ∧
      (Matrix.new 1 1).height =
        ({ Matrix.new 1 1 with cells := [[some ⟨(1, 2, 3)⟩]] } : Matrix).height) ∧
      (∃ l, (Matrix.new 1 1).diff { Matrix.new 1 1 with cells := [[some ⟨(1, 2, 3)⟩]] } =
          .ok l ∧
        (∀ u ∈ l, u.cell =
          ({ Matrix.new 1 1 with cells := [[some ⟨(1, 2, 3)⟩]] } : Matrix).cellAt u.y u.x) ∧
        (l.map fun u => (u.x, u.y)).Nodup ∧
        (∀ x y : ℕ, (x, y) ∈ l.map (fun u => (u.x, u.y)) ↔
          x < (Matrix.new 1 1).width ∧ y < (Matrix.new 1 1).height ∧
            (Matrix.new 1 1).cellAt y x ≠
              ({ Matrix.new 1 1 with cells := [[some ⟨(1, 2, 3)⟩]] } : Matrix).cellAt y x) ∧
        ((∀ y x : ℕ, (Matrix.new 1 1).cellAt y x =
            ({ Matrix.new 1 1 with cells := [[some ⟨(1, 2, 3)⟩]] } : Matrix).cellAt y x) →
          l = []) ∧
        ((∀ y x : ℕ, (Matrix.new 1 1).cellAt y x = none) →
          ∀ x y : ℕ, (x, y) ∈ l.map (fun u => (u.x, u.y)) ↔
            x < (Matrix.new 1 1).width ∧ y < (Matrix.new 1 1).height ∧
              ({ Matrix.new 1 1 with cells := [[some ⟨(1, 2, 3)⟩]] } : Matrix).cellAt y x ≠
                none)) :=
  ⟨⟨rfl, rfl⟩,
    diff_updates_characterization (Matrix.new 1 1)
      { Matrix.new 1 1 with cells := [[some ⟨(1, 2, 3)⟩]] } rfl rfl⟩

/-- Claim C7: diffing frames whose widths or heights differ is a fatal
error — the differencer panics (errs) and returns no update list. -/
theorem diff_dimension_mismatch_errors (P N : Matrix)
    (h : P.width ≠ N.width ∨ P.height ≠ N.height) :
    ∃ msg, P.diff N = .error msg := by
  unfold Matrix.diff
  by_cases hwc : P.width ≠ N.width
  · exact ⟨_, by rw [if_pos hwc]⟩
  · rcases h with hw | hh
    · exact absurd hw hwc
    · exact ⟨_, by rw [if_neg hwc, if_pos hh]⟩

/-- Witness for `diff_dimension_mismatch_errors`: a 1×1 frame against a 2×1
frame. -/
theorem diff_dimension_mismatch_errors_witness :
    ((Matrix.new 1 1).width ≠ (Matrix.new 2 1).width ∨
      (Matrix.new 1 1).height ≠ (Matrix.new 2 1).height) ∧
      (∃ msg, (Matrix.new 1 1).diff (Matrix.new 2 1) = .error msg) :=
  ⟨Or.inl (by decide),
    diff_dimension_mismatch_errors (Matrix.new 1 1) (Matrix.new 2 1)
      (Or.inl (by decide))⟩

/-! ### Hand angles (claim C2) -/

/-- Claim C2 counterexample: at tick interval 500 ms and wall time
00:00:00.500 the code's minute angle is `1/20` of a degree, not the `0`
degrees given by the claimed formula `(min + sec/60)/60*360` with the
integer seconds value: the fractional millisecond term propagates into the
minute angle as well. -/
theorem degree_minute_millis_counterexample :
    degreeMinute 500 0 0 500 = 1 / 20 ∧
      degreeMinute 500 0 0 500 ≠ (((0 : ℚ) + (0 : ℚ) / 60) / 60) * 360 := by
  constructor
  · norm_num [degreeMinute, secondWithMillis]
  · norm_num [degreeMinute, secondWithMillis]

/-- Claim C2 (amended): with `sec_eff = sec + ms/1000` when the tick
interval is below 1000 ms and `sec_eff = sec` otherwise, the angles are
`second_angle = sec_eff/60*360`, `minute_angle = (min + sec_eff/60)/60*360`
(the fractional term feeds the minute hand too), and
`hour_angle = (hour%12 + min/60)/12*360`; consequently at 03:00:00.000 the
hour angle is 90 and the minute and second angles are 0, and at 00:30:00 the
minute angle is 180 and the hour angle is 15. -/
theorem hand_angle_formulas (tickMillis hour minute second millisecond : ℕ) :
    degreeSecond tickMillis second millisecond =
      (if tickMillis < 1000 then (second : ℚ) + (millisecond : ℚ) / 1000
        else (second : ℚ)) / 60 * 360 ∧
      degreeMinute tickMillis minute second millisecond =
        ((minute : ℚ) +
          (if tickMillis < 1000 then (second : ℚ) + (millisecond : ℚ) / 1000
            else (second : ℚ)) / 60) / 60 * 360 ∧
      degreeHour hour minute =
        (((hour % 12 : ℕ) : ℚ) + (minute : ℚ) / 60) / 12 * 360 ∧
      degreeHour 3 0 = 90 ∧
      degreeMinute tickMillis 0 0 0 = 0 ∧
      degreeSecond tickMillis 0 0 = 0 ∧
      degreeMinute tickMillis 30 0 0 = 180 ∧
      degreeHour 0 30 = 15 := by
  refine ⟨rfl, rfl, rfl, ?_, ?_, ?_, ?_, ?_⟩
  · norm_num [degreeHour]
  · unfold degreeMinute secondWithMillis
    split_ifs <;> norm_num
  · unfold degreeSecond secondWithMillis
    split_ifs <;> norm_num
  · unfold degreeMinute secondWithMillis
    split_ifs <;> norm_num
  · norm_num [degreeHour]

/-! ### Key handling and the logical clock width (claims C3, C8) -/

/-- Claim C3 counterexample: from the default aspect ratio 2.0 a `+` key
press raises the ratio to 2.1, and on an 80-column screen that *shrinks* the
logical clock width from 40 to 38 — `+` decreases, not increases, the
logical width (it increases the divisor; what widens is the displayed,
stretched clock). -/
theorem plus_key_shrinks_logical_width :
    handleKeyEvent '+' false 2 = .cont (21 / 10) ∧
      clockWidth 80 2 = 40 ∧
      clockWidth 80 (21 / 10) = 38 ∧
      clockWidth 80 (21 / 10) < clockWidth 80 2 := by
  refine ⟨?_, ?_, ?_, ?_⟩
  · unfold handleKeyEvent
    rw [if_pos (Or.inl rfl)]
    norm_num
  · norm_num [clockWidth, ratTrunc]
    rfl
  · norm_num [clockWidth, ratTrunc]
    rfl
  · norm_num [clockWidth, ratTrunc]

/-- Claim C3 (amended): `+`/`=` *increase* the aspect-ratio divisor by 0.1
(thereby weakly decreasing the logical clock width, the screen width divided
by the ratio, while widening the displayed clock), `-` decreases the divisor
by 0.1 only when it exceeds 1.0 (the floor), and `0` resets it to the
default 2.0; the logical clock width is antitone in the divisor. -/
theorem key_adjusts_aspect_divisor :
    (∀ a : ℚ, handleKeyEvent '+' false a = .cont (a + 1 / 10)) ∧
      (∀ a : ℚ, handleKeyEvent '=' false a = .cont (a + 1 / 10)) ∧
      (∀ a : ℚ, handleKeyEvent '-' false a =
        .cont (if 1 < a then a - 1 / 10 else a)) ∧
      (∀ a : ℚ, handleKeyEvent '0' false a = .cont 2) ∧
      (∀ (w : ℕ) (a b : ℚ), 0 < a → a ≤ b → clockWidth w b ≤ clockWidth w a) := by
  refine ⟨fun a => rfl, fun a => rfl, fun a => rfl, fun a => rfl, ?_⟩
  intro w a b ha hab
  have hb : 0 < b := lt_of_lt_of_le ha hab
  have hdivb : (0 : ℚ) ≤ (w : ℚ) / b := by positivity
  have hdiva : (0 : ℚ) ≤ (w : ℚ) / a := by positivity
  have hle : (w : ℚ) / b ≤ (w : ℚ) / a :=
    div_le_div_of_nonneg_left (by positivity) ha hab
  unfold clockWidth ratTrunc
  rw [if_pos hdivb, if_pos hdiva]
  exact Int.toNat_le_toNat (Int.floor_le_floor hle)

/-- Witness for `key_adjusts_aspect_divisor` at screen width 80, ratios 2
and 2.1. -/
theorem key_adjusts_aspect_divisor_witness :
    (0 : ℚ) < 2 ∧ (2 : ℚ) ≤ 21 / 10 ∧ clockWidth 80 (21 / 10) ≤ clockWidth 80 2 :=
  ⟨by norm_num, by norm_num,
    key_adjusts_aspect_divisor.2.2.2.2 80 2 (21 / 10) (by norm_num) (by norm_num)⟩

lemma handleKeyEvent_cont_ge (c : Char) (a a' : ℚ) (h9 : 9 / 10 ≤ a)
    (h : handleKeyEvent c false a = .cont a') : 9 / 10 ≤ a' := by
  unfold handleKeyEvent at h
  split_ifs at h <;>
    first
      | exact KeyOutcome.noConfusion h
      | (obtain rfl := KeyOutcome.cont.inj h
         first
           | linarith
           | norm_num)

lemma applyKey_ge (a : ℚ) (c : Char) (h : 9 / 10 ≤ a) : 9 / 10 ≤ applyKey a c := by
  unfold applyKey
  rcases hkey : handleKeyEvent c false a with a' | _
  · exact handleKeyEvent_cont_ge c a a' h hkey
  · exact h

lemma foldl_applyKey_ge (l : List Char) :
    ∀ a : ℚ, 9 / 10 ≤ a → 9 / 10 ≤ List.foldl applyKey a l := by
  induction l with
  | nil => intro a ha; exact ha
  | cons c l ih =>
    intro a ha
    exact ih _ (applyKey_ge a c ha)

/-- Claim C8: starting from the initial aspect ratio 2.0, every sequence of
key events handled by the input loop keeps the aspect ratio strictly
positive (it in fact never drops below 0.9, since the `-` handler only
decrements when the ratio exceeds 1.0). -/
theorem aspect_stays_positive (l : List Char) :
    0 < List.foldl applyKey 2 l ∧
      (∀ a : ℚ, applyKey a '-' = if 1 < a then a - 1 / 10 else a) := by
  constructor
  · have := foldl_applyKey_ge l 2 (by norm_num)
    linarith
  · intro a
    rfl

/-! ### Terminal restoration on quit (claim C4) -/

/-- Claim C4 (code bug, evaluated on the quit path): the quit branch clears
the screen and shows the cursor before exiting, but never disables raw mode
— `disable_raw_mode` is absent from the commands it issues, although raw
mode was enabled at startup; the terminal is left in raw mode on exit. -/
theorem quit_restores_cursor_but_not_raw_mode :
    TermCommand.clearAll ∈ quitCommands ∧
      TermCommand.showCursor ∈ quitCommands ∧
      quitCommands.getLast? = some (.exitProcess 0) ∧
      TermCommand.enableRawMode ∈ startupCommands ∧
      TermCommand.disableRawMode ∉ quitCommands ∧
      TermCommand.disableRawMode ∉ startupCommands := by
  refine ⟨by decide, by decide, by decide, by decide, by decide, by decide⟩

/-! ### The rescale pixel encoding (claim C10) -/

lemma decodePixel_not_white (px : Pixel) (cl : Cell) (h : decodePixel px = some cl) :
    cl.color ≠ ((255 : ℚ), (255 : ℚ), (255 : ℚ)) := by
  obtain ⟨r, g, b⟩ := px
  simp only [decodePixel] at h
  split_ifs at h with hne
  · obtain rfl := Option.some.inj h
    intro hcon
    apply hne
    have h1 : (r : ℚ) = 255 := congrArg Prod.fst hcon
    have h2 : (g : ℚ) = 255 := congrArg (fun t => t.2.1) hcon
    have h3 : (b : ℚ) = 255 := congrArg (fun t => t.2.2) hcon
    have hr : r = 255 := by exact_mod_cast h1
    have hg : g = 255 := by exact_mod_cast h2
    have hb : b = 255 := by exact_mod_cast h3
    rw [hr, hg, hb]

/-- Claim C10: the aspect-ratio rescaling encodes empty cells as the
pure-white pixel and decodes pure white back to empty; consequently a source
cell whose byte color is exactly RGB(255,255,255) comes out empty wherever
the resize samples it, and no cell of the rescaled frame can carry exactly
that color. -/
theorem white_cells_do_not_survive_rescale (m : Matrix)
    (sampler : ℕ × ℕ → ℕ × ℕ) (p : ℕ × ℕ) :
    (∀ cl : Cell, m.cellAt (sampler p).2 (sampler p).1 = some cl →
      encodeCell (some cl) = (255, 255, 255) →
        rescaledCellAt m sampler p = none) ∧
      decodePixel (255, 255, 255) = none ∧
      encodeCell none = (255, 255, 255) ∧
      (∀ cl : Cell, rescaledCellAt m sampler p = some cl →
        cl.color ≠ ((255 : ℚ), (255 : ℚ), (255 : ℚ))) := by
  refine ⟨?_, by simp [decodePixel], rfl, ?_⟩
  · intro cl hcell hwhite
    unfold rescaledCellAt
    rw [hcell, hwhite]
    simp [decodePixel]
  · intro cl h
    exact decodePixel_not_white _ cl h

/-- Witness for `white_cells_do_not_survive_rescale`: a 1×1 frame whose only
cell is colored exactly (255,255,255), sampled identically. -/
theorem white_cells_do_not_survive_rescale_witness :
    (({ Matrix.new 1 1 with
          cells := [[some ⟨(255, 255, 255)⟩]] } : Matrix).cellAt 0 0 =
        some ⟨(255, 255, 255)⟩ ∧
      encodeCell (some ⟨(255, 255, 255)⟩) = (255, 255, 255)) ∧
      rescaledCellAt { Matrix.new 1 1 with cells := [[some ⟨(255, 255, 255)⟩]] }
        (fun q => q) (0, 0) = none :=
  ⟨⟨rfl, by norm_num [encodeCell, f32ToU8, ratTrunc] <;> rfl⟩,
    (white_cells_do_not_survive_rescale
        { Matrix.new 1 1 with cells := [[some ⟨(255, 255, 255)⟩]] }
        (fun q => q) (0, 0)).1 ⟨(255, 255, 255)⟩ rfl
      (by norm_num [encodeCell, f32ToU8, ratTrunc] <;> rfl)⟩

end AnalogClock
